import Mathlib

/-!
# Verification of the `painted-shared` utility library

Shallow embedding of the library's functions and hooks, with theorems
settling the specification claims.

The JavaScript value universe relevant to `isEquals` is modelled with an
explicit heap: primitives are immutable values, objects are references
(addresses) into a heap mapping each address to its list of own enumerable
string-keyed fields.  This makes JavaScript's reference-identity `===` on
objects, and possible cyclic object graphs, expressible.  `NaN` is modelled
explicitly since `NaN === NaN` is `false` in JavaScript.
-/

namespace PaintedShared

/-- JavaScript numbers as used by this library: `NaN` or a finite value
(modelled as a rational; floating-point rounding is irrelevant to the
claims under study). -/
inductive JSNum where
  | nan : JSNum
  | fin (q : ℚ) : JSNum
deriving DecidableEq, Repr

/-- `===` on numbers: `NaN` is not strictly equal to anything, including
itself; finite numbers compare by value. -/
def jsNumEq : JSNum → JSNum → Bool
  | .nan, _ => false
  | _, .nan => false
  | .fin a, .fin b => a == b

/-- JavaScript values: primitives, or a reference to a heap object. -/
inductive JSVal where
  | num (n : JSNum)
  | str (s : String)
  | bool (b : Bool)
  | jsNull
  | undefined
  | ref (a : ℕ)
deriving DecidableEq, Repr

/-- The result of JavaScript's `typeof` on a modelled value
(`typeof null` is `"object"`). -/
def typeOf : JSVal → String
  | .num _ => "number"
  | .str _ => "string"
  | .bool _ => "boolean"
  | .jsNull => "object"
  | .undefined => "undefined"
  | .ref _ => "object"

/-- JavaScript strict equality `===`: reference identity on objects,
value equality on primitives, with `NaN !== NaN`. -/
def strictEq : JSVal → JSVal → Bool
  | .num a, .num b => jsNumEq a b
  | .str a, .str b => a == b
  | .bool a, .bool b => a == b
  | .jsNull, .jsNull => true
  | .undefined, .undefined => true
  | .ref a, .ref b => a == b
  | _, _ => false

/-- A heap: each address maps to the object's own enumerable fields, in
property order. -/
def Heap : Type := List (ℕ × List (String × JSVal))

/-- The fields stored at address `a` (a dangling address reads as an empty
object; in JavaScript every live reference resolves). -/
def lookupHeap (h : Heap) (a : ℕ) : List (String × JSVal) :=
  ((h.find? (fun p => p.1 == a)).map (fun p => p.2)).getD []

/-- The own fields of a value: objects read their heap record, primitives
have none. -/
def fieldsOf (h : Heap) : JSVal → List (String × JSVal)
  | .ref a => lookupHeap h a
  | _ => []

/-- `Reflect.has` on a modelled (prototype-less) object's field list. -/
def hasField (fields : List (String × JSVal)) (k : String) : Bool :=
  fields.any (fun p => p.1 == k)

/-- `Reflect.get` on a field list, `undefined` when the key is absent. -/
def getFieldD (fields : List (String × JSVal)) (k : String) : JSVal :=
  ((fields.find? (fun p => p.1 == k)).map (fun p => p.2)).getD .undefined

/-- `isEquals` from the library, instrumented with fuel to account for the
unbounded recursion on object graphs:

```ts
export const isEquals = (x: unknown, y: unknown) => {
    if (x === y) return true;
    if (typeof x !== 'object' || typeof y !== 'object') {
        return typeof x === typeof y ? x === y : false;
    }
    if (x === null || y === null) return false;
    const xKeys = Object.keys(x), yKeys = Object.keys(y);
    if (xKeys.length !== yKeys.length) return false;
    for (const key of xKeys) {
        if (!Reflect.has(y, key) ||
            !isEquals(Reflect.get(x, key), Reflect.get(y, key)))
            return false;
    }
    return true;
};
```

`none` means the fuel ran out, i.e. the recursion is still running at that
depth.  The key loop is a left fold that short-circuits exactly as the
source's early `return false` does. -/
def isEqualsF (h : Heap) : ℕ → JSVal → JSVal → Option Bool
  | 0, _, _ => none
  | fuel + 1, x, y =>
    if strictEq x y then some true
    else if typeOf x != "object" || typeOf y != "object" then
      some (if typeOf x == typeOf y then strictEq x y else false)
    else if strictEq x .jsNull || strictEq y .jsNull then some false
    else
      let xf := fieldsOf h x
      let yf := fieldsOf h y
      if xf.length != yf.length then some false
      else
        xf.foldl
          (fun acc kv =>
            match acc with
            | some true =>
              if hasField yf kv.1 then isEqualsF h fuel kv.2 (getFieldD yf kv.1)
              else some false
            | r => r)
          (some true)

/-- Whether a value is the primitive `NaN` number. -/
def isNaNV : JSVal → Bool
  | .num .nan => true
  | _ => false

/-- Depth-boundedness of a value's object graph: every chain of field
dereferences starting from the value follows at most `d` references. -/
def boundedDepth (h : Heap) : ℕ → JSVal → Bool
  | _, .num _ => true
  | _, .str _ => true
  | _, .bool _ => true
  | _, .jsNull => true
  | _, .undefined => true
  | 0, .ref _ => false
  | d + 1, .ref a => (lookupHeap h a).all (fun kv => boundedDepth h d kv.2)

/-- Divergence of `isEquals` on a pair of arguments: no amount of fuel makes
the recursion return. -/
def isEqualsDiverges (h : Heap) (x y : JSVal) : Prop :=
  ∀ fuel, isEqualsF h fuel x y = none

/-- Two distinct one-field self-referential objects (`a.self = a`,
`b.self = b`). -/
def cyclicHeap : Heap := [(0, [("self", .ref 0)]), (1, [("self", .ref 1)])]

/-! ## The `useConstant` hook

```ts
export const useConstant = <T>(init: () => T): T => {
  const ref = useRef<T>();
  if (!ref.current) ref.current = init();
  return ref.current;
};
```

One component instance is modelled by the ref cell's contents
(`Option T`, `none` for the initial `undefined`) threaded through
successive renders, together with a counter of how many times `init` has
run.  `init` may be impure, so it is modelled as a function of its call
number.  `!ref.current` is true when the cell is `undefined` *or* holds a
falsy value, so the model takes the host language's truthiness test on `T`
as a parameter. -/

/-- One render of a component using `useConstant`: takes the ref cell and
the `init` call counter, returns the updated state and the rendered
value. -/
def useConstantRender {T : Type} (falsy : T → Bool) (initF : ℕ → T) :
    Option T × ℕ → (Option T × ℕ) × T
  | (none, calls) => ((some (initF calls), calls + 1), initF calls)
  | (some v, calls) =>
    if falsy v then ((some (initF calls), calls + 1), initF calls)
    else ((some v, calls), v)

/-- `n` successive renders of one component instance starting from the
fresh ref cell; returns the final state and the value returned on each
render. -/
def simulateUseConstant {T : Type} (falsy : T → Bool) (initF : ℕ → T) :
    ℕ → (Option T × ℕ) × List T
  | 0 => ((none, 0), [])
  | n + 1 =>
    let r := simulateUseConstant falsy initF n
    let r' := useConstantRender falsy initF r.1
    (r'.1, r.2 ++ [r'.2])

/-! ## `debounce`

```ts
export function debounce<T extends (...args: unknown[]) => void>(func: T, delay = 500) {
  let timeout: number | null = null;
  return (...args: Parameters<T>) => {
    if (timeout !== null) { clearTimeout(timeout); }
    timeout = window.setTimeout(() => { func(...args); }, delay);
  };
}
```

The single-threaded event loop is modelled by processing the calls to the
wrapper in time order; the closure state is the pending timer (fire time
and captured arguments) or `none`.  A pending timer whose fire time is not
after the current call's time has already fired on the event loop, so it
is flushed before the call is handled; whatever timer is still pending
after the last call fires unchallenged. -/

/-- Run the debounced wrapper over a time-ordered list of calls
`(time, args)`, starting from pending-timer state `st`; returns the list
of underlying-callback invocations as `(time, args)` pairs. -/
def debounceRun {A : Type} (delay : ℕ) (st : Option (ℕ × A)) :
    List (ℕ × A) → List (ℕ × A)
  | [] =>
    match st with
    | some fa => [fa]
    | none => []
  | (t, a) :: rest =>
    match st with
    | some (ft, fargs) =>
      if ft ≤ t then (ft, fargs) :: debounceRun delay (some (t + delay, a)) rest
      else debounceRun delay (some (t + delay, a)) rest
    | none => debounceRun delay (some (t + delay, a)) rest

/-- The behaviour the spec describes for debounce: a call fires at its time
plus `delay`, with its own arguments, exactly when it is the last call or
the next call comes no sooner than `delay` after it. -/
def debounceSpec {A : Type} (delay : ℕ) : List (ℕ × A) → List (ℕ × A)
  | [] => []
  | [(t, a)] => [(t + delay, a)]
  | (t, a) :: (t', a') :: rest =>
    if t + delay ≤ t' then (t + delay, a) :: debounceSpec delay ((t', a') :: rest)
    else debounceSpec delay ((t', a') :: rest)

/-! ## `throttle`

```ts
export function throttle<T extends (...args: unknown[]) => void>(func: T, delay = 500) {
  let previous: number;
  let defineTimer: null | number = null;
  return (...args: Parameters<T>) => {
    const now = Date.now();
    if (previous && now < previous + delay) {
      defineTimer && window.clearTimeout(defineTimer);
      defineTimer = window.setTimeout(() => { func(...args); previous = now; }, delay);
    } else {
      func(...args);
      previous = now;
    }
  };
}
```

Note that the deferred branch's timer callback assigns `previous = now`
where `now` is the timestamp of the *call* that scheduled the timer, not
the time the timer fires, and that the immediate branch does not clear a
pending timer.  `previous` starts out `undefined` (modelled `none`) and
`previous && …` is the number's truthiness test, so `previous = 0` also
fails the guard. -/

/-- Closure state of a throttled wrapper: `previous`, and the pending
timer as `(fire time, captured now, captured args)`. -/
structure ThrottleState (A : Type) where
  previous : Option ℕ
  timer : Option (ℕ × ℕ × A)
deriving Repr

/-- Fire the pending timer if its fire time has arrived by time `t`:
the callback runs `func(...args); previous = now`. -/
def throttleFlush {A : Type} (st : ThrottleState A) (t : ℕ) :
    ThrottleState A × List (ℕ × A) :=
  match st.timer with
  | some (fireAt, capturedNow, args) =>
    if fireAt ≤ t then ({ previous := some capturedNow, timer := none }, [(fireAt, args)])
    else (st, [])
  | none => (st, [])

/-- Handle one call to the throttled wrapper at time `t`. -/
def throttleCall {A : Type} (delay : ℕ) (st : ThrottleState A) (t : ℕ) (args : A) :
    ThrottleState A × List (ℕ × A) :=
  match st.previous with
  | some p =>
    if p ≠ 0 ∧ t < p + delay then
      ({ previous := st.previous, timer := some (t + delay, t, args) }, [])
    else
      ({ previous := some t, timer := st.timer }, [(t, args)])
  | none => ({ previous := some t, timer := st.timer }, [(t, args)])

/-- Run the throttled wrapper over a time-ordered list of calls, flushing
the timer before each call and once after the last call; returns the list
of underlying-callback invocations as `(time, args)` pairs. -/
def throttleRun {A : Type} (delay : ℕ) (st : ThrottleState A) :
    List (ℕ × A) → List (ℕ × A)
  | [] =>
    match st.timer with
    | some (fireAt, _, args) => [(fireAt, args)]
    | none => []
  | (t, a) :: rest =>
    let f := throttleFlush st t
    let c := throttleCall delay f.1 t a
    f.2 ++ c.2 ++ throttleRun delay c.1 rest

/-! ## `pick` and `omit`

Objects are modelled as association lists of string keys in property
order, as produced by `Object.keys` / `Reflect.ownKeys` on a plain
string-keyed object. -/

/-- `Reflect.get` on a modelled plain object: first-match lookup in the
property list. -/
def objGet {V : Type} : List (String × V) → String → Option V
  | [], _ => none
  | p :: rest, k => if p.1 == k then some p.2 else objGet rest k

/-- `Reflect.has` on a modelled plain object: on a prototype-less plain
object a property is present exactly when its lookup succeeds. -/
def objHas {V : Type} (o : List (String × V)) (k : String) : Bool :=
  (objGet o k).isSome

/-- Property assignment `value[key] = v`: overwrite in place when the key
exists, else append at the end (JavaScript property-order semantics). -/
def objSet {V : Type} : List (String × V) → String → V → List (String × V)
  | [], k, v => [(k, v)]
  | p :: rest, k, v => if p.1 == k then (k, v) :: rest else p :: objSet rest k v

/--
```ts
export const pick = (target, keys) =>
  keys.reduce((value, key) => {
    if (Reflect.has(target, key)) value[key] = Reflect.get(target, key, target);
    return value;
  }, {});
```
-/
def pick {V : Type} (target : List (String × V)) (keys : List String) :
    List (String × V) :=
  keys.foldl
    (fun value key =>
      if objHas target key then
        match objGet target key with
        | some v => objSet value key v
        | none => value
      else value)
    []

/--
```ts
export const omit = (target, keys) =>
  pick(target, Reflect.ownKeys(target).filter((key) => !keys.includes(key)));
```
-/
def «omit» {V : Type} (target : List (String × V)) (keys : List String) :
    List (String × V) :=
  pick target ((target.map (fun p => p.1)).filter (fun k => !(keys.contains k)))

/-! ## `pipe`

```ts
export const pipe = (initialValue) => {
  return (...transformers) => {
    if (transformers.length === 0) return initialValue;
    if (!isFunction(transformers[0])) return pipe(initialValue);
    return pipe(transformers[0](initialValue));
  };
};
```

A finished chain `pipe(v)(s₁)(s₂)…(sₙ)()` is modelled by the list of its
steps, each either a transformer function (`some f`) or one of the falsy
step values `undefined`/`null`/`false` (`none`, all of which fail the
`isFunction` test identically); the trailing empty call is the end of the
list. -/

/-- Evaluate a finished pipe chain over value type `V`. -/
def pipeRun {V : Type} (v : V) : List (Option (V → V)) → V
  | [] => v
  | some f :: rest => pipeRun (f v) rest
  | none :: rest => pipeRun v rest

/-! ## `clamp`

```ts
export const clamp = (min: number, value: number, max: number) =>
  Math.min(Math.max(value, min), max);
```

Numbers are modelled as rationals (the claims concern only ordering, on
which floating point agrees away from `NaN`/overflow). -/

def clamp (min value max : ℚ) : ℚ := Min.min (Max.max value min) max

/-! ## `useLatestRef` / `useLatestFunc`

```ts
export const useLatestRef = <T>(value: T) => {
  const ref = useRef<T>();
  ref.current = value;
  return ref;
};
export const useLatestFunc = (func) => {
  const ref = useLatestRef(func);
  const apply = useCallback((...args) => ref.current!(...args), [ref]);
  return (ref.current ? apply : void 0) as T;
};
```

Per component instance, `useRef` returns the *same* cell object on every
render, so the `useCallback` dependency array `[ref]` never changes; the
cell's identity is the constant `refDepToken`.  `useCallback` is modelled
by its memo slot: it allocates a fresh callback identity (a counter value)
when the dependencies differ from the memoized ones and reuses the stored
identity otherwise.  The rendered result is the callback's identity when
`func` is defined (a function value is always truthy) and `undefined`
(`none`) otherwise. -/

/-- Identity of the ref cell of one component instance: `useRef` hands the
same object to every render. -/
def refDepToken : ℕ := 0

/-- State of a component instance using `useLatestFunc`: the ref cell's
contents, the `useCallback` memo slot `(callback identity, memoized
deps)`, and the allocator for fresh callback identities. -/
structure LatestFuncState (F : Type) where
  refCurrent : Option F
  memo : Option (ℕ × ℕ)
  fresh : ℕ

/-- The fresh instance state before the first render. -/
def initLF (F : Type) : LatestFuncState F := ⟨none, none, 0⟩

/-- One `useCallback(…, deps)` evaluation: returns the updated memo slot,
the callback identity handed back, and the updated allocator. -/
def useCallbackStep (deps : ℕ) (memo : Option (ℕ × ℕ)) (fresh : ℕ) :
    (ℕ × ℕ) × ℕ × ℕ :=
  match memo with
  | some (id, d) => if d == deps then ((id, d), id, fresh) else ((fresh, deps), fresh, fresh + 1)
  | none => ((fresh, deps), fresh, fresh + 1)

/-- One render of `useLatestFunc` with argument `func`; returns the new
state and the rendered result (`some` callback identity, or `none` for
`undefined`). -/
def useLatestFuncRender {F : Type} (st : LatestFuncState F) (func : Option F) :
    LatestFuncState F × Option ℕ :=
  let refCur := func
  let r := useCallbackStep refDepToken st.memo st.fresh
  (⟨refCur, some r.1, r.2.2⟩, if refCur.isSome then some r.2.1 else none)

/-- Render a component instance once per element of `funcs`; returns the
final state and each render's result. -/
def runLatestFunc {F : Type} (st : LatestFuncState F) :
    List (Option F) → LatestFuncState F × List (Option ℕ)
  | [] => (st, [])
  | f :: rest =>
    let r := useLatestFuncRender st f
    let rec' := runLatestFunc r.1 rest
    (rec'.1, r.2 :: rec'.2)

/-- Invoking the function returned by `useLatestFunc` after some renders:
`(...args) => ref.current!(...args)` applies whatever the ref cell holds
now. -/
def invokeLatest {A B : Type} (st : LatestFuncState (A → B)) (a : A) : Option B :=
  st.refCurrent.map (fun f => f a)

/-! ## `isEmpty`

```ts
export const isEmpty = (v: Array<unknown> | object | string): boolean => {
  if (Array.isArray(v)) { return v.length === 0; }
  else if (isPlainObject(v)) { return Object.keys(v).length === 0; }
  else if (isString(v)) { return v.trim().length === 0; }
  else { return false; }
};
```

The argument domain is modelled by its four runtime-distinguishable
shapes; `exoticObj` is an object whose prototype is not `Object.prototype`
(a `Date`, a class instance, …), which fails `isPlainObject`. -/

/-- The runtime shapes of an `isEmpty` argument. -/
inductive EmptyArg (V : Type) where
  | arr (elems : List V)
  | plainObj (fields : List (String × V))
  | exoticObj (fields : List (String × V))
  | str (s : String)

/-- The characters `String.prototype.trim` removes (JavaScript WhiteSpace
and LineTerminator code points; the common ones suffice for the model). -/
def jsWhitespace (c : Char) : Bool :=
  [' ', '\t', '\n', '\r', '\x0b', '\x0c',
    Char.ofNat 0xa0, Char.ofNat 0x1680, Char.ofNat 0x2000, Char.ofNat 0x2028,
    Char.ofNat 0x2029, Char.ofNat 0x202f, Char.ofNat 0x3000,
    Char.ofNat 0xfeff].contains c

/-- `String.prototype.trim`: drop leading and trailing whitespace. -/
def strTrim (s : String) : String :=
  ⟨((s.data.dropWhile jsWhitespace).reverse.dropWhile jsWhitespace).reverse⟩

/-- `isEmpty`, branch for branch:  `Array.isArray` → length check;
`isPlainObject` → own-key count; `isString` → trimmed length; otherwise
`false`. -/
def isEmpty {V : Type} : EmptyArg V → Bool
  | .arr elems => elems.length == 0
  | .plainObj fields => fields.length == 0
  | .str s => (strTrim s).data.length == 0
  | .exoticObj _ => false

/-!
# Theorems

Helper lemmas first, then one theorem per claim (with counterexamples and
witnesses where called for).
-/

/-- `===` holds of any value and itself except the `NaN` number. -/
lemma strictEq_self (x : JSVal) (hx : isNaNV x = false) : strictEq x x = true := by
  cases x with
  | num n =>
    cases n with
    | nan => simp [isNaNV] at hx
    | fin q => simp [strictEq, jsNumEq]
  | str s => simp [strictEq]
  | bool b => simp [strictEq]
  | jsNull => simp [strictEq]
  | undefined => simp [strictEq]
  | ref a => simp [strictEq]

lemma cyclic_divergence_aux :
    ∀ fuel, isEqualsF cyclicHeap fuel (.ref 0) (.ref 1) = none := by
  intro fuel
  induction fuel with
  | zero => rfl
  | succ n ih =>
    simp only [cyclicHeap] at ih ⊢
    simp [isEqualsF, strictEq, typeOf, fieldsOf, lookupHeap, hasField, getFieldD, ih]

/-- The short-circuiting key loop of `isEquals` produces a result whenever
every per-key comparison it may perform produces one. -/
lemma foldl_step_isSome {α : Type} (f : α → Option Bool) (cond : α → Bool) :
    ∀ (l : List α) (acc : Option Bool), acc.isSome = true →
      (∀ kv ∈ l, (f kv).isSome = true) →
      ((l.foldl (fun acc kv => match acc with
        | some true => if cond kv then f kv else some false
        | r => r) acc).isSome = true) := by
  intro l
  induction l with
  | nil => intro acc ha _; simpa using ha
  | cons a l ihl =>
    intro acc ha hf
    simp only [List.foldl]
    apply ihl
    · cases acc with
      | none => simp at ha
      | some b =>
        cases b with
        | false => simp
        | true =>
          by_cases hc : cond a = true
          · simpa [hc] using hf a (by simp)
          · simp [hc]
    · intro kv hkv; exact hf kv (by simp [hkv])

/-- On a non-reference argument `isEquals` returns in one step: one of the
three early branches always applies. -/
lemma isEqualsF_nonref_isSome (h : Heap) (fuel : ℕ) (x y : JSVal)
    (hx : ∀ a, x ≠ .ref a) : (isEqualsF h (fuel + 1) x y).isSome = true := by
  rw [isEqualsF]
  split
  · simp
  split
  · simp
  split
  · simp
  rename_i h1 h2 h3
  exfalso
  simp only [Bool.or_eq_true, bne_iff_ne, ne_eq, not_or, not_not] at h2
  cases x with
  | ref a => exact hx a rfl
  | jsNull => simp [strictEq] at h3
  | num n => simp [typeOf] at h2
  | str s => simp [typeOf] at h2
  | bool b => simp [typeOf] at h2
  | undefined => simp [typeOf] at h2

/-- C2, counterexample: the claim says `isEquals` is reflexive *including
when x is NaN*, but `isEquals(NaN, NaN)` evaluates to `false` — the `===`
fast path fails on `NaN` and the primitive branch then returns
`NaN === NaN` again. -/
theorem isEquals_nan_not_reflexive :
    isEqualsF [] 1 (.num .nan) (.num .nan) = some false := by decide

/-- C1, counterexample: with an `init` that returns the falsy value `0`,
two re-renders of one component instance call `init` twice — `!ref.current`
re-runs `init` whenever the cached value is falsy, so "at most once" fails. -/
theorem useConstant_falsy_counterexample :
    (simulateUseConstant (fun v => v == 0) (fun _ => (0 : ℕ)) 2).1.2 = 2 ∧
      ¬ (simulateUseConstant (fun v => v == 0) (fun _ => (0 : ℕ)) 2).1.2 ≤ 1 := by
  decide

/-- C1 (amended): provided the value produced by `init`'s first call is
truthy, `useConstant` calls `init` exactly once across any positive number
of renders of the instance and every render returns that first call's
value. -/
theorem useConstant_truthy_init_once {T : Type} (falsy : T → Bool) (initF : ℕ → T)
    (h : falsy (initF 0) = false) (n : ℕ) (hn : 1 ≤ n) :
    (simulateUseConstant falsy initF n).1 = (some (initF 0), 1) ∧
      (simulateUseConstant falsy initF n).2 = List.replicate n (initF 0) := by
  induction n with
  | zero => cases hn
  | succ n ih =>
    match n, ih with
    | 0, _ => simp [simulateUseConstant, useConstantRender]
    | m + 1, ih =>
      obtain ⟨h1, h2⟩ := ih (by omega)
      have e : simulateUseConstant falsy initF (m + 1 + 1)
          = ((useConstantRender falsy initF (simulateUseConstant falsy initF (m + 1)).1).1,
             (simulateUseConstant falsy initF (m + 1)).2
               ++ [(useConstantRender falsy initF (simulateUseConstant falsy initF (m + 1)).1).2]) := rfl
      rw [e, h1, h2]
      constructor
      · simp [useConstantRender, h]
      · simp [useConstantRender, h, List.replicate_succ']

/-- C1, witness for the amended theorem at a concrete truthy `init`. -/
theorem useConstant_truthy_init_once_witness :
    ((fun v : ℕ => v == 0) ((fun _ : ℕ => (7 : ℕ)) 0) = false) ∧ 1 ≤ 2 ∧
      (simulateUseConstant (fun v : ℕ => v == 0) (fun _ => (7 : ℕ)) 2).1 = (some 7, 1) ∧
      (simulateUseConstant (fun v : ℕ => v == 0) (fun _ => (7 : ℕ)) 2).2 = [7, 7] := by
  refine ⟨by decide, by decide, ?_⟩
  have h := useConstant_truthy_init_once (fun v : ℕ => v == 0) (fun _ => (7 : ℕ))
    (by decide) 2 (by decide)
  simpa using h

/-- C2 (amended): `isEquals(x, x)` is `true` for every value `x` that is not
the primitive `NaN` number — including objects whose fields hold `NaN`,
which hit the reference-identity fast path — and is `false` exactly when
`x` is `NaN`. -/
theorem isEquals_refl_except_nan (h : Heap) (fuel : ℕ) (x : JSVal) :
    isEqualsF h (fuel + 1) x x = some (!(isNaNV x)) := by
  by_cases hx : isNaNV x = false
  · simp [isEqualsF, strictEq_self x hx, hx]
  · simp only [Bool.not_eq_false] at hx
    cases x with
    | num n =>
      cases n with
      | nan => simp [isEqualsF, strictEq, jsNumEq, typeOf, isNaNV]
      | fin q => simp [isNaNV] at hx
    | str s => simp [isNaNV] at hx
    | bool b => simp [isNaNV] at hx
    | jsNull => simp [isNaNV] at hx
    | undefined => simp [isNaNV] at hx
    | ref a => simp [isNaNV] at hx

/-- C5, counterexample: on two distinct self-referential one-field objects
the recursion of `isEquals` never returns, whatever the recursion budget —
in JavaScript the call overflows the stack, so `isEquals` is not total on
every pair of argument values. -/
theorem isEquals_diverges_on_cyclic_graph :
    isEqualsDiverges cyclicHeap (.ref 0) (.ref 1) :=
  cyclic_divergence_aux

/-- C5 (amended): `isEquals` does terminate on every pair of arguments
whose object graphs are acyclic: if every dereference chain from `x` has
length at most `d`, a recursion budget of `d + 1` already produces a
result, for any `y`. -/
theorem isEquals_terminates_on_bounded_depth (h : Heap) (d : ℕ) (x y : JSVal)
    (hx : boundedDepth h d x = true) :
    (isEqualsF h (d + 1) x y).isSome = true := by
  induction d generalizing x y with
  | zero =>
    cases x with
    | ref a => simp [boundedDepth] at hx
    | num n => exact isEqualsF_nonref_isSome h 0 _ y (by intro a hc; cases hc)
    | str s => exact isEqualsF_nonref_isSome h 0 _ y (by intro a hc; cases hc)
    | bool b => exact isEqualsF_nonref_isSome h 0 _ y (by intro a hc; cases hc)
    | jsNull => exact isEqualsF_nonref_isSome h 0 _ y (by intro a hc; cases hc)
    | undefined => exact isEqualsF_nonref_isSome h 0 _ y (by intro a hc; cases hc)
  | succ d ih =>
    cases x with
    | num n => exact isEqualsF_nonref_isSome h _ _ y (by intro a hc; cases hc)
    | str s => exact isEqualsF_nonref_isSome h _ _ y (by intro a hc; cases hc)
    | bool b => exact isEqualsF_nonref_isSome h _ _ y (by intro a hc; cases hc)
    | jsNull => exact isEqualsF_nonref_isSome h _ _ y (by intro a hc; cases hc)
    | undefined => exact isEqualsF_nonref_isSome h _ _ y (by intro a hc; cases hc)
    | ref a =>
      rw [isEqualsF]
      split
      · simp
      split
      · simp
      split
      · simp
      dsimp only
      split
      · simp
      · apply foldl_step_isSome
          (fun kv : String × JSVal => isEqualsF h (d + 1) kv.2 (getFieldD (fieldsOf h y) kv.1))
          (fun kv : String × JSVal => hasField (fieldsOf h y) kv.1)
        · rfl
        · intro kv hkv
          apply ih
          simp only [boundedDepth] at hx
          rw [List.all_eq_true] at hx
          exact hx kv (by simpa [fieldsOf] using hkv)

/-- C5, witness for the amended theorem: a depth-1 object compared against
a number returns within budget 2. -/
theorem isEquals_terminates_on_bounded_depth_witness :
    boundedDepth [] 1 (.ref 0) = true ∧
      (isEqualsF [] 2 (.ref 0) (.num (.fin 1))).isSome = true :=
  ⟨by decide, isEquals_terminates_on_bounded_depth [] 1 (.ref 0) (.num (.fin 1)) (by decide)⟩

/-- C3: the throttled wrapper *can* invoke the callback twice inside one
`delay`-window.  With `delay = 500` and wrapper calls at times 100, 150 and
660, the callback runs at 100 (immediate), at 650 (deferred fire, which
sets `previous` to the *call* time 150 rather than the fire time), and
again immediately at 660 since `660 ≥ 150 + 500` — two invocations 10ms
apart, contradicting "at most once per `delay` window". -/
theorem throttle_two_invocations_in_one_window :
    throttleRun 500 ⟨none, none⟩ [(100, 0), (150, 1), (660, 2)] =
      [(100, 0), (650, 1), (660, 2)] ∧ 650 < 660 ∧ 660 < 650 + 500 := by
  decide

lemma debounceRun_pending {A : Type} (delay : ℕ) :
    ∀ (rest : List (ℕ × A)) (t : ℕ) (a : A),
      List.Chain' (fun p q => p.1 ≤ q.1) ((t, a) :: rest) →
      debounceRun delay (some (t + delay, a)) rest = debounceSpec delay ((t, a) :: rest) := by
  intro rest
  induction rest with
  | nil => intro t a _; rfl
  | cons hd tl ih =>
    intro t a hchain
    obtain ⟨t', a'⟩ := hd
    rw [List.chain'_cons] at hchain
    have hrest := ih t' a' hchain.2
    by_cases hle : t + delay ≤ t'
    · simp [debounceRun, debounceSpec, hle, hrest]
    · simp [debounceRun, debounceSpec, hle, hrest]

/-- C4: for any delay `d` and any time-ordered sequence of calls to the
debounced wrapper, the underlying callback runs exactly for the calls
followed by a quiet period of at least `d` (i.e. last call, or next call
no sooner than `d` later), at that call's time plus `d`, with that call's
arguments — which is precisely `debounceSpec`. -/
theorem debounce_fires_after_quiet_period {A : Type} (d : ℕ) (calls : List (ℕ × A))
    (hsorted : List.Chain' (fun p q => p.1 ≤ q.1) calls) :
    debounceRun d none calls = debounceSpec d calls := by
  cases calls with
  | nil => rfl
  | cons hd tl =>
    obtain ⟨t, a⟩ := hd
    have : debounceRun d none ((t, a) :: tl) = debounceRun d (some (t + d, a)) tl := rfl
    rw [this, debounceRun_pending d tl t a hsorted]

/-- C4, witness: calls at 0, 20 and 140 with delay 100 fire at 120 (for the
call at 20, its successor being 120 ≥ 20 + 100 away) and at 240 (for the
final call); the call at 0 never fires since the next call comes 20 < 100
later. -/
theorem debounce_fires_after_quiet_period_witness :
    List.Chain' (fun p q : ℕ × ℕ => p.1 ≤ q.1) [(0, 1), (20, 2), (140, 3)] ∧
      debounceRun 100 none [((0 : ℕ), (1 : ℕ)), (20, 2), (140, 3)] =
        debounceSpec 100 [((0 : ℕ), (1 : ℕ)), (20, 2), (140, 3)] ∧
      debounceSpec 100 [((0 : ℕ), (1 : ℕ)), (20, 2), (140, 3)] = [(120, 2), (240, 3)] :=
  ⟨by simp [List.chain'_cons], debounce_fires_after_quiet_period 100 _ (by simp [List.chain'_cons]),
    by decide⟩

/-- Looking up `k'` after assigning `k := v` yields `v` at `k'` equal to
`k` and the old binding otherwise. -/
lemma objGet_objSet {V : Type} (k k' : String) (v : V) :
    ∀ o : List (String × V),
      objGet (objSet o k v) k' = if k' == k then some v else objGet o k' := by
  intro o
  induction o with
  | nil =>
    by_cases hk : k' = k
    · simp [objSet, objGet, hk]
    · simp [objSet, objGet, hk, Ne.symm hk]
  | cons p rest ih =>
    by_cases hp : p.1 = k
    · by_cases hk : k' = k
      · simp [objSet, objGet, hp, hk]
      · simp [objSet, objGet, hp, hk, Ne.symm hk]
    · by_cases hk : k' = k
      · subst hk
        simp [objSet, objGet, hp, ih]
      · simp [objSet, objGet, hp, hk, ih]

/-- Invariant of `pick`'s reduce loop: a key resolves in the accumulated
object to the target's binding when it was among the processed keys and is
present on the target, and to its prior binding in the accumulator
otherwise. -/
lemma objGet_pick_fold {V : Type} (o : List (String × V)) (k : String) :
    ∀ (ks : List String) (acc : List (String × V)),
      objGet (ks.foldl (fun value key =>
          if objHas o key then
            match objGet o key with
            | some v => objSet value key v
            | none => value
          else value) acc) k
        = if ks.contains k && objHas o k then objGet o k else objGet acc k := by
  intro ks
  induction ks with
  | nil => intro acc; simp
  | cons key rest ih =>
    intro acc
    rw [List.foldl_cons, ih]
    by_cases hko : objHas o k = true
    · by_cases hkey : key = k
      · subst hkey
        obtain ⟨v, hv⟩ := Option.isSome_iff_exists.mp (by simpa [objHas] using hko)
        by_cases hr : key ∈ rest
        · simp [hr, hko, hv, objGet_objSet]
        · simp [hr, hko, hv, objGet_objSet]
      · by_cases hhk : objHas o key = true
        · obtain ⟨v, hv⟩ := Option.isSome_iff_exists.mp (by simpa [objHas] using hhk)
          simp [hko, hhk, hv, objGet_objSet, hkey, List.contains_cons,
            Ne.symm hkey]
        · simp [hko, hhk, List.contains_cons, hkey, Ne.symm hkey]
    · by_cases hhk : objHas o key = true
      · obtain ⟨v, hv⟩ := Option.isSome_iff_exists.mp (by simpa [objHas] using hhk)
        have hkk : ¬ k = key := by
          intro hkk; rw [hkk] at hko; exact hko hhk
        simp [hko, hhk, hv, objGet_objSet, hkk]
      · simp [hko, hhk]

/-- A key outside an object's key list does not resolve. -/
lemma objGet_none_of_not_mem {V : Type} (k : String) :
    ∀ o : List (String × V), ¬ k ∈ o.map (fun p => p.1) → objGet o k = none := by
  intro o
  induction o with
  | nil => intro _; rfl
  | cons p rest ih =>
    intro h
    simp only [List.map_cons, List.mem_cons, not_or] at h
    have h1 : ¬ (p.1 == k) = true := by
      intro hc
      have hpe : p.1 = k := by simpa using hc
      exact h.1 hpe.symm
    simp only [objGet, if_neg h1]
    exact ih h.2

/-- A key of the object resolves. -/
lemma objHas_of_mem {V : Type} (k : String) :
    ∀ o : List (String × V), k ∈ o.map (fun p => p.1) → objHas o k = true := by
  intro o
  induction o with
  | nil => intro h; cases h
  | cons p rest ih =>
    intro h
    simp only [List.map_cons, List.mem_cons] at h
    by_cases hp : (p.1 == k) = true
    · simp [objHas, objGet, hp]
    · have hk : k ∈ rest.map (fun p => p.1) := by
        rcases h with h | h
        · exact absurd (by simpa using h.symm) hp
        · exact h
      simp [objHas, objGet, hp]
      simpa [objHas] using ih hk

/-- `pick` keeps exactly the requested keys that the target has, at the
target's values. -/
lemma objGet_pick {V : Type} (o : List (String × V)) (ks : List String) (k : String) :
    objGet (pick o ks) k = if ks.contains k = true then objGet o k else none := by
  have h := objGet_pick_fold o k ks []
  by_cases hc : ks.contains k = true
  · by_cases hh : objHas o k = true
    · simpa [pick, hc, hh] using h
    · have hnone : objGet o k = none :=
        Option.not_isSome_iff_eq_none.mp (by simpa [objHas] using hh)
      simp only [pick] at h ⊢
      rw [h]
      simp [hc, hh, hnone, objGet]
  · have hc' : ¬ k ∈ ks := by simpa [List.elem_iff] using hc
    simp only [pick] at h ⊢
    rw [h]
    simp [hc, hc', objGet]

/-- `omit` keeps exactly the target's own keys outside the requested list,
at the target's values. -/
lemma objGet_omit {V : Type} (o : List (String × V)) (ks : List String) (k : String) :
    objGet («omit» o ks) k = if ks.contains k = true then none else objGet o k := by
  rw [«omit», objGet_pick]
  by_cases hc : ks.contains k = true
  · have hmem : k ∈ ks := List.elem_iff.mp hc
    have hno : ¬ ((o.map (fun p => p.1)).filter (fun k => !(ks.contains k))).contains k = true := by
      intro hcon
      have h2 := List.elem_iff.mp hcon
      rw [List.mem_filter] at h2
      simp only [Bool.not_eq_eq_eq_not, Bool.not_true, List.elem_iff] at h2
      exact absurd hmem (by simpa using h2.2)
    simp [hc, hno, hmem]
  · have hnot : ¬ k ∈ ks := fun hmm => hc (List.elem_iff.mpr hmm)
    by_cases hm : k ∈ o.map (fun p => p.1)
    · have hyes : ((o.map (fun p => p.1)).filter (fun k => !(ks.contains k))).contains k = true :=
        List.elem_iff.mpr (List.mem_filter.mpr ⟨hm, by simpa using hnot⟩)
      simp [hyes, hnot]
      intro hnone
      rw [List.mem_map] at hm
      obtain ⟨p, hp, hpk⟩ := hm
      have hpo : (k, p.2) ∈ o := by rw [← hpk]; simpa using hp
      exact absurd hpo (hnone p.2)
    · have h1 : ¬ ((o.map (fun p => p.1)).filter (fun k => !(ks.contains k))).contains k = true := by
        intro hcon
        exact hm (List.mem_filter.mp (List.elem_iff.mp hcon)).1
      simp [h1, hnot, objGet_none_of_not_mem k o hm]

/-- C6: `pick` and `omit` are complements.  For every object `o`, key list
`ks` and key `k`: `pick o ks` binds `k` to `o`'s binding exactly when
`k ∈ ks` (and `o` has it); `omit o ks` binds `k` to `o`'s binding exactly
when `k ∉ ks`; their bindings are disjoint; and together they recover
exactly `o`'s own bindings.  Both build a fresh object, leaving `o`
untouched (the model is pure, as the source copies entries into a new
literal). -/
theorem pick_omit_complement {V : Type} (o : List (String × V)) (ks : List String) (k : String) :
    objGet (pick o ks) k = (if ks.contains k = true then objGet o k else none) ∧
      objGet («omit» o ks) k = (if ks.contains k = true then none else objGet o k) ∧
      ((objGet (pick o ks) k).isSome && (objGet («omit» o ks) k).isSome) = false ∧
      objGet o k = ((objGet (pick o ks) k).orElse (fun _ => objGet («omit» o ks) k)) := by
  refine ⟨objGet_pick o ks k, objGet_omit o ks k, ?_, ?_⟩
  · rw [objGet_pick, objGet_omit]
    by_cases hc : ks.contains k = true
    · have hm : k ∈ ks := List.elem_iff.mp hc
      simp [hc, hm]
    · have hm : ¬ k ∈ ks := fun hx => hc (List.elem_iff.mpr hx)
      simp [hc, hm]
  · rw [objGet_pick, objGet_omit]
    by_cases hc : ks.contains k = true
    · have hm : k ∈ ks := List.elem_iff.mp hc
      cases hk : objGet o k <;> simp [hc, hm, hk, Option.orElse]
    · have hm : ¬ k ∈ ks := fun hx => hc (List.elem_iff.mpr hx)
      cases hk : objGet o k <;> simp [hc, hm, hk, Option.orElse]

/-- C7: a finished pipe chain applies exactly its function steps, left to
right, to the initial value, skipping falsy steps; in particular
`pipe(v)()` is `v` and `pipe(v)(f)()` is `f(v)`. -/
theorem pipe_composes_skipping_falsy (V : Type) (v : V) (steps : List (Option (V → V))) :
    pipeRun v steps = (steps.filterMap id).foldl (fun x f => f x) v ∧
      pipeRun v ([] : List (Option (V → V))) = v ∧
      ∀ f : V → V, pipeRun v [some f] = f v := by
  refine ⟨?_, rfl, fun f => rfl⟩
  induction steps generalizing v with
  | nil => rfl
  | cons s rest ih =>
    cases s with
    | some f => simpa [pipeRun, List.filterMap_cons] using ih (f v)
    | none => simpa [pipeRun, List.filterMap_cons] using ih v

/-- C8: for `min ≤ max`, `clamp` returns `min` below the interval, `max`
above it, the value itself inside it, and always lands in
`[min, max]`. -/
theorem clamp_within_bounds (lo v hi : ℚ) (h : lo ≤ hi) :
    (v < lo → clamp lo v hi = lo) ∧ (hi < v → clamp lo v hi = hi) ∧
      (lo ≤ v → v ≤ hi → clamp lo v hi = v) ∧
      lo ≤ clamp lo v hi ∧ clamp lo v hi ≤ hi := by
  unfold clamp
  refine ⟨?_, ?_, ?_, ?_, ?_⟩
  · intro hv
    rw [max_eq_right (le_of_lt hv), min_eq_left h]
  · intro hv
    rw [max_eq_left (le_trans h (le_of_lt hv)), min_eq_right (le_of_lt hv)]
  · intro h1 h2
    rw [max_eq_left h1, min_eq_left h2]
  · exact le_min (le_max_right v lo) h
  · exact min_le_right _ _

/-- C8, witness: `clamp 0 5 3 = 3`. -/
theorem clamp_within_bounds_witness :
    (0 : ℚ) ≤ 3 ∧ (3 : ℚ) < 5 ∧ clamp 0 5 3 = 3 :=
  ⟨by decide, by decide, (clamp_within_bounds 0 5 3 (by decide)).2.1 (by decide)⟩

/-- Once the first render has allocated the memoized callback (identity 0)
against the never-changing dependency `refDepToken`, every later render
reuses it, and the ref cell always holds the latest `func`. -/
lemma runLatestFunc_steady {F : Type} :
    ∀ (funcs : List (Option F)) (r : Option F),
      (runLatestFunc ⟨r, some (0, refDepToken), 1⟩ funcs).2
          = funcs.map (fun o => if o.isSome then some 0 else none) ∧
        (runLatestFunc ⟨r, some (0, refDepToken), 1⟩ funcs).1.refCurrent
          = funcs.getLastD r := by
  intro funcs
  induction funcs with
  | nil => intro r; exact ⟨rfl, rfl⟩
  | cons f rest ih =>
    intro r
    have e : runLatestFunc (⟨r, some (0, refDepToken), 1⟩ : LatestFuncState F) (f :: rest)
        = ((runLatestFunc ⟨f, some (0, refDepToken), 1⟩ rest).1,
           (if f.isSome then some 0 else none)
             :: (runLatestFunc ⟨f, some (0, refDepToken), 1⟩ rest).2) := rfl
    rw [e]
    refine ⟨?_, ?_⟩
    · simp [(ih f).1]
    · rw [List.getLastD_cons]
      exact (ih f).2

/-- C9: across any render sequence of one component instance,
`useLatestFunc` returns the same callback identity (0) on every render
where `func` is defined and `undefined` exactly on the renders where
`func` is undefined, and invoking the returned callback applies the
`func` supplied by the most recent render to the given argument. -/
theorem useLatestFunc_latest_and_stable (A B : Type) (funcs : List (Option (A → B))) :
    (runLatestFunc (initLF (A → B)) funcs).2
        = funcs.map (fun o => if o.isSome then some 0 else none) ∧
      (runLatestFunc (initLF (A → B)) funcs).1.refCurrent = funcs.getLastD none ∧
      ∀ a : A, invokeLatest (runLatestFunc (initLF (A → B)) funcs).1 a
        = (funcs.getLastD none).map (fun f => f a) := by
  cases funcs with
  | nil => exact ⟨rfl, rfl, fun a => rfl⟩
  | cons f rest =>
    have e : runLatestFunc (initLF (A → B)) (f :: rest)
        = ((runLatestFunc ⟨f, some (0, refDepToken), 1⟩ rest).1,
           (if f.isSome then some 0 else none)
             :: (runLatestFunc ⟨f, some (0, refDepToken), 1⟩ rest).2) := rfl
    obtain ⟨h1, h2⟩ := runLatestFunc_steady (F := A → B) rest f
    rw [e]
    refine ⟨by simp [h1], by rw [List.getLastD_cons]; exact h2, ?_⟩
    intro a
    simp only [invokeLatest, h2, List.getLastD_cons]

/-- C10: `isEmpty` is true on a string exactly when every character is
whitespace (the string is trimmed before its length is tested), and is
false on every object that is neither an array nor a plain object, even
with no own keys. -/
theorem isEmpty_whitespace_and_exotic (V : Type) (s : String) (fs : List (String × V)) :
    isEmpty (EmptyArg.str (V := V) s) = s.data.all jsWhitespace ∧
      isEmpty (EmptyArg.exoticObj fs) = false := by
  refine ⟨?_, rfl⟩
  simp only [isEmpty, strTrim]
  by_cases h : s.data.all jsWhitespace = true
  · have h1 : s.data.dropWhile jsWhitespace = [] :=
      List.dropWhile_eq_nil_iff.mpr (fun x hx => List.all_eq_true.mp h x hx)
    simp [h1, h]
  · obtain ⟨x, hmem, hxp⟩ : ∃ x ∈ s.data, ¬ jsWhitespace x = true := by
      simpa [List.all_eq_true] using h
    have h1 : s.data.dropWhile jsWhitespace ≠ [] := by
      intro hnil
      exact hxp (List.dropWhile_eq_nil_iff.mp hnil x hmem)
    have hpos : 0 < (s.data.dropWhile jsWhitespace).length :=
      List.length_pos.mpr h1
    have hhead := List.dropWhile_get_zero_not jsWhitespace s.data hpos
    have hmem2 : (s.data.dropWhile jsWhitespace).get ⟨0, hpos⟩
        ∈ (s.data.dropWhile jsWhitespace).reverse := by
      rw [List.mem_reverse]
      exact List.get_mem _ _ hpos
    have h2 : (s.data.dropWhile jsWhitespace).reverse.dropWhile jsWhitespace ≠ [] := by
      intro hnil
      exact hhead (List.dropWhile_eq_nil_iff.mp hnil _ hmem2)
    have h3 : ((s.data.dropWhile jsWhitespace).reverse.dropWhile jsWhitespace).reverse.length ≠ 0 := by
      simpa [List.length_reverse, List.length_eq_zero] using h2
    simp only [Bool.not_eq_true] at h
    rw [h]
    simpa using h3

end PaintedShared
